import Mathlib

/-!
Verification of the take list-selection utility.

Shallow embedding of the core algorithms of take (src/take.c, src/prompt.c,
src/screen.c) into Lean, together with theorems settling the behavioural
claims about command generation, list movement, searching, marking,
prompt editing, screen writing and preselection.

Text is modelled as List Char.  Machine integers of the C source, where a
value can be negative or where signed/unsigned conversion matters, are
modelled as Int with explicit two-complement reduction.  Regular-expression
matching -- performed by the external POSIX regexec in the source -- is
abstracted as a boolean predicate on line text; a failed regcomp is
modelled as the absence of such a predicate.
-/

namespace Take

/-- Selectable line: immutable text plus a mutable marked flag
(struct select_line in take.c). -/
structure select_line where
  text : List Char
  marked : Bool
deriving DecidableEq, Repr

/-- Substitution engine of process_cmd_escapes in take.c.  Walks the
command template.  An at-sign is replaced by the argument, the two
character sequences percent-at and percent-percent produce a literal
at-sign and a literal percent, any other character (including a percent
not followed by at-sign or percent) is copied unchanged. -/
def process_cmd_escapes (arg : List Char) : List Char → List Char
  | [] => []
  | '@' :: rest => arg ++ process_cmd_escapes arg rest
  | '%' :: '@' :: rest => '@' :: process_cmd_escapes arg rest
  | '%' :: '%' :: rest => '%' :: process_cmd_escapes arg rest
  | c :: rest => c :: process_cmd_escapes arg rest

/-- The join-mode accumulation loop of select_lines_create_commands:
append each marked line text, preceded by the join string whenever a
marked line was already emitted (the nonfirst flag of the source). -/
def join_marked (js : List Char) (nonfirst : Bool) : List select_line → List Char
  | [] => []
  | l :: rest =>
      if l.marked then
        (if nonfirst then js else []) ++ l.text ++ join_marked js true rest
      else
        join_marked js nonfirst rest

/-- The per-line command loop of select_lines_create_commands: one
command per marked line, in list order. -/
def create_commands_each (cmd : List Char) : List select_line → List (List Char)
  | [] => []
  | l :: rest =>
      if l.marked then
        process_cmd_escapes l.text cmd :: create_commands_each cmd rest
      else
        create_commands_each cmd rest

/-- select_lines_create_commands from take.c.  In join mode (the join
option given, with effective join string js) all marked texts are joined
and a single command is produced; otherwise one command per marked line. -/
def select_lines_create_commands (cmd : List Char) (joinOpt : Option (List Char))
    (lines : List select_line) : List (List Char) :=
  match joinOpt with
  | some js => [process_cmd_escapes (join_marked js false lines) cmd]
  | none => create_commands_each cmd lines

/-- Texts of the marked lines, in order. -/
def marked_texts (lines : List select_line) : List (List Char) :=
  (lines.filter (fun l => l.marked)).map (fun l => l.text)

/-- Reduction of an Int to the unsigned 64-bit value the C integer
conversion rules produce when a signed pl_pos_t operand meets an
unsigned pl_size_t operand. -/
def u64 (z : Int) : Int := z % (2 ^ 64)

/-- Viewport and cursor state of a select_lines list: firstline and
curline from struct select_lines, y the window-local cursor row of the
attached window (win_info y field; window-local row 0 is the top edge,
row height minus one is the bottom edge, per the WI_Y_MIN and WI_Y_MAX
macros of screen.h). -/
structure move_state where
  firstline : Int
  curline : Int
  y : Int
deriving DecidableEq, Repr

/-- select_lines_move_down_n from take.c.  count is the number of lines,
H the window height (WI_Y_SIZE).  Each step checks curline against
count minus one (a signed against unsigned comparison in C, hence the
u64 reduction), then either scrolls (firstline increments, cursor row
pinned at the bottom edge) or moves the cursor row down.  Returns the
final state and the number of steps performed. -/
def select_lines_move_down_n (count : Nat) (H : Int) : Nat → move_state → move_state × Nat
  | 0, st => (st, 0)
  | n + 1, st =>
      if u64 st.curline < u64 ((count : Int) - 1) then
        let st' : move_state :=
          if st.y = H - 1 then ⟨st.firstline + 1, st.curline + 1, st.y⟩
          else ⟨st.firstline, st.curline + 1, st.y + 1⟩
        let r := select_lines_move_down_n count H n st'
        (r.1, r.2 + 1)
      else (st, 0)

/-- select_lines_move_up_n from take.c.  Each step requires curline
positive, then either scrolls (firstline decrements, cursor row pinned
at the top edge) or moves the cursor row up. -/
def select_lines_move_up_n (H : Int) : Nat → move_state → move_state × Nat
  | 0, st => (st, 0)
  | n + 1, st =>
      if 0 < st.curline then
        let st' : move_state :=
          if st.y = 0 then ⟨st.firstline - 1, st.curline - 1, st.y⟩
          else ⟨st.firstline, st.curline - 1, st.y - 1⟩
        let r := select_lines_move_up_n H n st'
        (r.1, r.2 + 1)
      else (st, 0)

/-- select_lines_center_view from take.c.  half_cnt is half the window
height, dist the cursor distance from the first visible line; the new
firstline candidate puts the current line at the vertical midpoint, and
is installed only when it is non-negative (otherwise firstline is left
untouched). -/
def select_lines_center_view (H : Int) (st : move_state) : move_state :=
  let half_cnt := H / 2
  let dist := st.curline - st.firstline
  let offset := dist - half_cnt
  let newfirst := st.firstline + offset
  if 0 ≤ newfirst then { st with firstline := newfirst } else st

/-- Window state of screen.h (win_info): resolved absolute extents on
the shared cell buffer and the window-local cursor.  The screen itself
always has x_min and y_min 0 (screen_update_geom), so the absolute
buffer column of window-local column x is x_min + x, and likewise for
rows (the BUFWI macro). -/
structure win_info where
  x_min : Int
  x_max : Int
  y_min : Int
  y_max : Int
  x : Int
  y : Int
deriving DecidableEq, Repr

/-- The SIMPLE_CHAR macro of screen.c with the default character map:
bytes 32 to 126 are the text class and are kept; every other byte
(controls, tab, newline, high bytes) renders as a single space. -/
def simple_char (c : Char) : Char :=
  if 32 ≤ c.toNat ∧ c.toNat ≤ 126 then c else ' '

/-- The write loop of screen_set_str2: characters are placed
left-to-right starting at window-local column x of the cursor row; a
character at local column x plus i is stored only when that column is
at most x_max plus one, otherwise it is skipped.  The cell buffer is a
function from absolute column and row to the stored character. -/
def set_str2_go (wi : win_info) : List Char → (Int → Int → Char) → Int → (Int → Int → Char)
  | [], buf, _ => buf
  | c :: rest, buf, i =>
      let buf' : Int → Int → Char :=
        if wi.x + i ≤ wi.x_max + 1 then
          fun cl rw =>
            if cl = wi.x_min + wi.x + i ∧ rw = wi.y_min + wi.y then simple_char c
            else buf cl rw
        else buf
      set_str2_go wi rest buf' (i + 1)

/-- screen_set_str2 from screen.c: write the string from the current
cursor position (the cursor itself is not touched) and return the
string length. -/
def screen_set_str2 (wi : win_info) (buf : Int → Int → Char) (str : List Char) :
    (Int → Int → Char) × Nat :=
  (set_str2_go wi str buf 0, str.length)

/-- Wrap of an Int into the signed 64-bit range, as the pl_pos_t
subtraction idx equals value minus one behaves in C. -/
def i64wrap (z : Int) : Int := (z + 2 ^ 63) % 2 ^ 64 - 2 ^ 63

/-- isdigit of ctype.h for the ASCII digits. -/
def is_digit (c : Char) : Bool := decide (48 ≤ c.toNat ∧ c.toNat ≤ 57)

/-- Numeric value of a digit string, as strtol reads it. -/
def digits_val : List Char → Nat → Nat
  | [], acc => acc
  | c :: rest, acc => digits_val rest (acc * 10 + (c.toNat - 48))

/-- strtol clamps an overflowing non-negative number to LONG_MAX. -/
def strtol_clamp (n : Nat) : Int := min (n : Int) (2 ^ 63 - 1)

/-- Toggle the marked flag of the line at the given index, leaving
everything else alone (the loop body shared by the preselect
functions). -/
def toggle_nth : List select_line → Nat → List select_line
  | [], _ => []
  | l :: rest, 0 => { l with marked := !l.marked } :: rest
  | l :: rest, i + 1 => l :: toggle_nth rest i

/-- One entry of select_lines_presel_listed in take.c: idx is the
strtol value minus one, computed in the signed 64-bit pl_pos_t; the
guard compares idx against the unsigned line count (the signed operand
converts to unsigned, so any negative idx becomes a huge value and
fails the guard whenever the list has fewer than 2 to the 63 lines,
which also keeps the subsequent line access in bounds); when the guard
passes, the marked flag of the line at idx is toggled. -/
def presel_entry (lines : List select_line) (v : Int) : List select_line :=
  let idx := i64wrap (v - 1)
  if u64 idx < (lines.length : Int) then toggle_nth lines idx.toNat else lines

/-- select_lines_presel_listed from take.c: process the strtol values
of the command-line entries in order. -/
def select_lines_presel_listed (lines : List select_line) (entries : List Int) :
    List select_line :=
  entries.foldl presel_entry lines

/-- The number-extraction state machine of select_lines_presel_file in
take.c, processing the file content character by character.  In the
find_end state (inNum true) digits accumulate into the buffer; the
first non-digit character terminates the number, which toggles its
line.  In the find_first state a digit switches to find_end without
consuming, so the digit becomes the first buffered character.  When
the character stream ends inside find_end, the loop breaks on EOF
before the number is processed, so a trailing number not followed by
any character is dropped. -/
def presel_file_go (lines : List select_line) (acc : List Char) (inNum : Bool) :
    List Char → List select_line
  | [] => lines
  | c :: rest =>
      if inNum then
        if is_digit c then presel_file_go lines (acc ++ [c]) true rest
        else presel_file_go (presel_entry lines (strtol_clamp (digits_val acc 0))) [] false rest
      else
        if is_digit c then presel_file_go lines [c] true rest
        else presel_file_go lines acc false rest

/-- select_lines_presel_file from take.c, on the character content of
the preselect file. -/
def select_lines_presel_file (lines : List select_line) (chars : List Char) :
    List select_line :=
  presel_file_go lines [] false chars

/-- Prompt editing state of prompt.c: b0 is the buffer display start
offset (view_start), bi the absolute cursor index in the buffer, buf
the edit buffer content.  The label length x0 and the window right
extent are parameters of the operations. -/
structure prompt_state where
  b0 : Int
  bi : Int
  buf : List Char
deriving DecidableEq, Repr

/-- The x_pos macro of prompt.c: the screen cursor column derived from
the prompt state. -/
def x_pos (x0 : Int) (st : prompt_state) : Int := x0 + (st.bi - st.b0)

/-- The editing operations dispatched by prompt_interact: move left and
right (CTRL_B and CTRL_F), jump to beginning and end (CTRL_A and
CTRL_E), delete after and before the cursor (CTRL_D and backspace),
kill to end of buffer (CTRL_K), and insert a character. -/
inductive prompt_op where
  | left
  | right
  | home
  | toEnd
  | del
  | backspace
  | kill
  | insert (c : Char)
deriving DecidableEq, Repr

/-- One editing step of the prompt_interact loop in prompt.c.  xmax is
WI_X_MAX of the prompt window.  The window cursor column read by the
edge tests equals x_pos of the current state, because prompt_refresh
runs before every key read and positions the cursor there.  Buffer
edits are the mcc container operations: insert at index, delete at
index, delete from index to the end.  Insertion happens only for the
printable codes 32 to 126 (the default branch guard). -/
def prompt_apply (x0 xmax : Int) (st : prompt_state) : prompt_op → prompt_state
  | .left =>
      if 0 < st.bi then
        if x_pos x0 st ≤ x0 then { st with b0 := st.b0 - 1, bi := st.bi - 1 }
        else { st with bi := st.bi - 1 }
      else st
  | .right =>
      if st.bi < st.buf.length then
        if xmax ≤ x_pos x0 st then { st with b0 := st.b0 + 1, bi := st.bi + 1 }
        else { st with bi := st.bi + 1 }
      else st
  | .home => { st with bi := 0, b0 := 0 }
  | .toEnd =>
      let bi2 := (st.buf.length : Int)
      let b02 := bi2 - xmax + x0
      { st with bi := bi2, b0 := if b02 < 0 then 0 else b02 }
  | .del =>
      if st.bi < st.buf.length then { st with buf := st.buf.eraseIdx st.bi.toNat }
      else st
  | .backspace =>
      if 0 < st.bi then
        if x_pos x0 st ≤ x0 then
          { st with b0 := st.b0 - 1, bi := st.bi - 1,
                    buf := st.buf.eraseIdx (st.bi - 1).toNat }
        else { st with bi := st.bi - 1, buf := st.buf.eraseIdx (st.bi - 1).toNat }
      else st
  | .kill =>
      if st.bi < st.buf.length then { st with buf := st.buf.take st.bi.toNat }
      else st
  | .insert c =>
      if 32 ≤ c.toNat ∧ c.toNat ≤ 126 then
        let buf2 := st.buf.take st.bi.toNat ++ c :: st.buf.drop st.bi.toNat
        if xmax ≤ x_pos x0 st then { st with buf := buf2, b0 := st.b0 + 1, bi := st.bi + 1 }
        else { st with buf := buf2, bi := st.bi + 1 }
      else st

/-- prompt_open_buffer: editing starts with an empty buffer, view
start and cursor both 0. -/
def prompt_init_state : prompt_state := ⟨0, 0, []⟩

/-- A sequence of editing operations applied from the initial state,
as the prompt_interact key loop does. -/
def prompt_run (x0 xmax : Int) (ops : List prompt_op) : prompt_state :=
  ops.foldl (prompt_apply x0 xmax) prompt_init_state

/-- The Prompt invariant of the specification: view_start and cursor
ordered and within the buffer, and the derived screen column inside
the window's horizontal extent. -/
def prompt_inv (x0 xmax : Int) (st : prompt_state) : Prop :=
  0 ≤ st.b0 ∧ st.b0 ≤ st.bi ∧ st.bi ≤ (st.buf.length : Int) ∧
  0 ≤ x_pos x0 st ∧ x_pos x0 st ≤ xmax

instance (x0 xmax : Int) (st : prompt_state) : Decidable (prompt_inv x0 xmax st) := by
  unfold prompt_inv
  infer_instance

/-- Forward scan of select_lines_find_next in take.c: starting at index
idx (inclusive), walk towards the end of the list; return the number of
steps to the first line the compiled pattern matches, none when the
scan falls off the end.  The regexec test is abstracted as the boolean
predicate m on line text. -/
def find_next_fwd (m : List Char → Bool) (texts : List (List Char)) (idx : Nat) : Option Nat :=
  if idx < texts.length then
    if m (texts.getD idx []) then some 0
    else (find_next_fwd m texts (idx + 1)).map (fun s => s + 1)
  else none
termination_by texts.length - idx

/-- Backward scan of select_lines_find_next: starting at index idx
(inclusive), walk towards index 0; return the number of steps to the
first matching line, none when the scan falls off the front. -/
def find_next_bwd (m : List Char → Bool) (texts : List (List Char)) : Nat → Option Nat
  | 0 =>
      if 0 < texts.length then
        if m (texts.getD 0 []) then some 0 else none
      else none
  | idx + 1 =>
      if idx + 1 < texts.length then
        if m (texts.getD (idx + 1) []) then some 0
        else (find_next_bwd m texts idx).map (fun s => s + 1)
      else none

/-- select_lines_find_next from take.c: directional scan from the
current line, without wraparound, stopping at the list boundary. -/
def select_lines_find_next (m : List Char → Bool) (texts : List (List Char)) (cur : Nat)
    (forward : Bool) : Option Nat :=
  if forward then find_next_fwd m texts cur else find_next_bwd m texts cur

/-- Set (or reset) the marked flag of the line at index i, as
select_lines_set_mark_to does on the current line. -/
def set_mark_nth (lines : List select_line) (i : Nat) (v : Bool) : List select_line :=
  lines.set i { lines.getD i ⟨[], false⟩ with marked := v }

/-- Line texts of a list, the strings regexec is applied to. -/
def fi_texts (lines : List select_line) : List (List Char) :=
  lines.map (fun l => l.text)

/-- The effect of select_lines_display on the window cursor row: it is
repositioned to curline minus firstline (the screen_setpos call in the
display function; it succeeds whenever the list invariant holds). -/
def fi_display (st : move_state) : move_state :=
  ⟨st.firstline, st.curline, st.curline - st.firstline⟩

/-- Keys dispatched by the select_lines_find_interactive loop. -/
inductive fi_key where
  | esc
  | ctrlG
  | q
  | enter
  | s
  | r
  | t
  | j
  | k
  | other
deriving DecidableEq, Repr

/-- Keys that terminate the find-interactive loop. -/
def fi_terminator : fi_key → Bool
  | .esc => true
  | .ctrlG => true
  | .q => true
  | .enter => true
  | _ => false

/-- Whether a terminating key reverts to the saved origin position
(Escape, Ctrl-G and q do, Enter stays on the last match). -/
def fi_use_org : fi_key → Bool
  | .esc => true
  | .ctrlG => true
  | .q => true
  | _ => false

/-- Loop state of select_lines_find_interactive: the viewport and
cursor position, the line list (whose marks the s, r, t keys edit) and
the first_search flag.  The prev_sl snapshot of the source does not
need to persist here because it is freshly saved at the start of every
j or k handler before any use. -/
structure fi_state where
  pos : move_state
  lines : List select_line
  first_search : Bool
deriving DecidableEq, Repr

/-- One non-terminating iteration of the select_lines_find_interactive
key loop, including the select_lines_display call at the bottom of the
loop (which re-derives the window cursor row).  For j: save the
position, then (on the first search without moving, otherwise after
one step down, and only if that step succeeded) run the forward scan;
on a hit move down by the returned distance, on a miss restore the
saved firstline and curline.  k is the mirror image with up moves and
the backward scan. -/
def fi_step (m : List Char → Bool) (H : Int) (s : fi_state) : fi_key → fi_state
  | .s => { s with lines := set_mark_nth s.lines s.pos.curline.toNat true,
                   pos := fi_display s.pos }
  | .r => { s with lines := set_mark_nth s.lines s.pos.curline.toNat false,
                   pos := fi_display s.pos }
  | .t => { s with lines := toggle_nth s.lines s.pos.curline.toNat,
                   pos := fi_display s.pos }
  | .j =>
      let count := s.lines.length
      let texts := fi_texts s.lines
      let prev := (s.pos.firstline, s.pos.curline)
      let pos2 : move_state :=
        if s.first_search then
          match select_lines_find_next m texts s.pos.curline.toNat true with
          | some off => (select_lines_move_down_n count H off s.pos).1
          | none => ⟨prev.1, prev.2, s.pos.y⟩
        else
          let d := select_lines_move_down_n count H 1 s.pos
          if d.2 = 1 then
            match select_lines_find_next m texts d.1.curline.toNat true with
            | some off => (select_lines_move_down_n count H off d.1).1
            | none => ⟨prev.1, prev.2, d.1.y⟩
          else s.pos
      { pos := fi_display pos2, lines := s.lines, first_search := false }
  | .k =>
      let texts := fi_texts s.lines
      let prev := (s.pos.firstline, s.pos.curline)
      let pos2 : move_state :=
        if s.first_search then
          match select_lines_find_next m texts s.pos.curline.toNat false with
          | some off => (select_lines_move_up_n H off s.pos).1
          | none => ⟨prev.1, prev.2, s.pos.y⟩
        else
          let d := select_lines_move_up_n H 1 s.pos
          if d.2 = 1 then
            match select_lines_find_next m texts d.1.curline.toNat false with
            | some off => (select_lines_move_up_n H off d.1).1
            | none => ⟨prev.1, prev.2, d.1.y⟩
          else s.pos
      { pos := fi_display pos2, lines := s.lines, first_search := false }
  | _ => { s with pos := fi_display s.pos }

/-- The select_lines_find_interactive key loop: a terminating key
stops with its use_org decision, any other key steps the state. -/
def fi_loop (m : List Char → Bool) (H : Int) : List fi_key → fi_state → fi_state × Option Bool
  | [], s => (s, none)
  | key :: rest, s =>
      if fi_terminator key then (s, some (fi_use_org key))
      else fi_loop m H rest (fi_step m H s key)

/-- select_lines_find_interactive from take.c, for a given compiled
pattern (the regcomp failure path reports an error and returns without
entering the loop; it is not part of this model).  Saves the entry
position, displays (normalising the cursor row), runs the key loop,
restores firstline and curline from the saved origin when the
terminating key asked for it, and displays again. -/
def select_lines_find_interactive (m : List Char → Bool) (H : Int)
    (lines : List select_line) (st0 : move_state) (keys : List fi_key) :
    move_state × List select_line :=
  let s0 : fi_state := ⟨fi_display st0, lines, true⟩
  let r := fi_loop m H keys s0
  let final : move_state :=
    if r.2 = some true then ⟨st0.firstline, st0.curline, r.1.pos.y⟩
    else r.1.pos
  (fi_display final, r.1.lines)

/-- The error message select_lines_mark_matching reports through the
prompt when regcomp fails. -/
def regexp_error_msg : List Char :=
  ['E', 'r', 'r', 'o', 'r', ' ', 'i', 'n', ' ', 'r', 'e', 'g', 'e', 'x', 'p', '!']

/-- select_lines_mark_matching from take.c.  regex_new either yields a
compiled matcher (abstracted as a predicate m on line text) or fails;
on failure an error message is shown via the prompt and nothing else
happens; on success every line whose text matches gets its marked flag
set, all other lines are left as they are.  Returns the new line list
and the prompt message, if any. -/
def select_lines_mark_matching (compiled : Option (List Char → Bool))
    (lines : List select_line) : List select_line × Option (List Char) :=
  match compiled with
  | none => (lines, some regexp_error_msg)
  | some m =>
      (lines.map (fun l => if m l.text then { l with marked := true } else l), none)

lemma join_marked_true (js : List Char) (lines : List select_line) :
    join_marked js true lines = ((marked_texts lines).map (fun t => js ++ t)).flatten := by
  induction lines with
  | nil => simp [join_marked, marked_texts]
  | cons l rest ih =>
      by_cases h : l.marked
      · simp [join_marked, marked_texts, h, List.filter_cons]
        simpa [marked_texts] using ih
      · simpa [join_marked, marked_texts, h, List.filter_cons] using ih

lemma join_marked_false (js : List Char) (lines : List select_line) :
    join_marked js false lines =
      match marked_texts lines with
      | [] => []
      | t :: ts => t ++ (ts.map (fun u => js ++ u)).flatten := by
  induction lines with
  | nil => simp [join_marked, marked_texts]
  | cons l rest ih =>
      by_cases h : l.marked
      · have hj := join_marked_true js rest
        simp [join_marked, marked_texts, h, List.filter_cons, hj]
      · simpa [join_marked, marked_texts, h, List.filter_cons] using ih

lemma create_commands_each_eq (cmd : List Char) (lines : List select_line) :
    create_commands_each cmd lines =
      (marked_texts lines).map (fun t => process_cmd_escapes t cmd) := by
  induction lines with
  | nil => simp [create_commands_each, marked_texts]
  | cons l rest ih =>
      by_cases h : l.marked
      · simp [create_commands_each, marked_texts, h, List.filter_cons]
        simpa [marked_texts] using ih
      · simpa [create_commands_each, marked_texts, h, List.filter_cons] using ih

lemma intercalate_as_flatten (js t : List Char) (ts : List (List Char)) :
    List.intercalate js (t :: ts) = t ++ (ts.map (fun u => js ++ u)).flatten := by
  induction ts generalizing t with
  | nil => simp [List.intercalate]
  | cons u us ih =>
      have h2 : List.intercalate js (t :: u :: us) = t ++ js ++ List.intercalate js (u :: us) := by
        simp [List.intercalate, List.intersperse]
      rw [h2, ih u]
      simp

lemma join_marked_intercalate (js : List Char) (lines : List select_line) :
    join_marked js false lines = List.intercalate js (marked_texts lines) := by
  rw [join_marked_false]
  cases h : marked_texts lines with
  | nil => simp [List.intercalate]
  | cons t ts => rw [intercalate_as_flatten]

/-- C1: command generation substitutes each unescaped at-sign in the
template with the marked line text, one command per marked line in list
order; the escapes percent-at and percent-percent yield literal at-sign
and percent, every other character is copied; join mode joins all marked
texts with the separator and yields exactly one command.  Includes the
three concrete examples of the claim. -/
theorem C1_build_commands :
    (∀ (cmd : List Char) (lines : List select_line),
        select_lines_create_commands cmd none lines
          = (marked_texts lines).map (fun t => process_cmd_escapes t cmd))
  ∧ (∀ (cmd js : List Char) (lines : List select_line),
        select_lines_create_commands cmd (some js) lines
          = [process_cmd_escapes (List.intercalate js (marked_texts lines)) cmd])
  ∧ select_lines_create_commands ['e', 'c', 'h', 'o', ' ', '@'] none
        [⟨['f', 'o', 'o', ' ', 'b', 'a', 'r'], true⟩]
      = [['e', 'c', 'h', 'o', ' ', 'f', 'o', 'o', ' ', 'b', 'a', 'r']]
  ∧ select_lines_create_commands ['e', 'c', 'h', 'o', ' ', '@'] (some [','])
        [⟨['a'], true⟩, ⟨['b'], true⟩]
      = [['e', 'c', 'h', 'o', ' ', 'a', ',', 'b']]
  ∧ select_lines_create_commands ['r', 'u', 'n', ' ', '%', '@', ' ', '@'] none
        [⟨['x'], true⟩]
      = [['r', 'u', 'n', ' ', '@', ' ', 'x']]
  ∧ (∀ (arg rest : List Char),
        process_cmd_escapes arg ('@' :: rest) = arg ++ process_cmd_escapes arg rest)
  ∧ (∀ (arg rest : List Char),
        process_cmd_escapes arg ('%' :: '@' :: rest) = '@' :: process_cmd_escapes arg rest)
  ∧ (∀ (arg rest : List Char),
        process_cmd_escapes arg ('%' :: '%' :: rest) = '%' :: process_cmd_escapes arg rest)
  ∧ (∀ (c : Char) (arg rest : List Char), c ≠ '@' → c ≠ '%' →
        process_cmd_escapes arg (c :: rest) = c :: process_cmd_escapes arg rest) := by
  refine ⟨?_, ?_, by decide, by decide, by decide, ?_, ?_, ?_, ?_⟩
  · intro cmd lines
    simp [select_lines_create_commands, create_commands_each_eq]
  · intro cmd js lines
    simp [select_lines_create_commands, join_marked_intercalate]
  · intro arg rest; rfl
  · intro arg rest; rfl
  · intro arg rest; rfl
  · intro c arg rest h1 h2
    rw [process_cmd_escapes.eq_def]
    split <;> simp_all

/-- Witness for C1: the copy-unchanged clause applied at a concrete
non-special character. -/
theorem C1_build_commands_witness :
    process_cmd_escapes ['z'] ('a' :: ['@']) = 'a' :: process_cmd_escapes ['z'] ['@'] :=
  C1_build_commands.2.2.2.2.2.2.2.2 'a' ['z'] ['@'] (by decide) (by decide)

lemma u64_small {a : Int} (h0 : 0 ≤ a) (h1 : a < 2 ^ 64) : u64 a = a := by
  unfold u64
  exact Int.emod_eq_of_lt h0 h1

lemma move_down_spec (count : Nat) (H : Int) (n : Nat) (st : move_state)
    (hH : 1 ≤ H) (hc0 : 0 ≤ st.curline) (hcc : st.curline < (count : Int))
    (hcount : (count : Int) ≤ 2 ^ 64)
    (hy0 : 0 ≤ st.y) (hy1 : st.y ≤ H - 1) (hyc : st.y = st.curline - st.firstline) :
    ((select_lines_move_down_n count H n st).2 : Int)
        = min (n : Int) ((count : Int) - 1 - st.curline) ∧
    (select_lines_move_down_n count H n st).1.curline
        = st.curline + ((select_lines_move_down_n count H n st).2 : Int) ∧
    (select_lines_move_down_n count H n st).1.firstline
        = max st.firstline ((select_lines_move_down_n count H n st).1.curline - (H - 1)) ∧
    (select_lines_move_down_n count H n st).1.y
        = (select_lines_move_down_n count H n st).1.curline
            - (select_lines_move_down_n count H n st).1.firstline := by
  induction n generalizing st with
  | zero =>
      simp only [select_lines_move_down_n]
      constructor
      · omega
      · refine ⟨by omega, by omega, by omega⟩
  | succ n ih =>
      have hcu : u64 st.curline = st.curline := u64_small hc0 (by omega)
      have hcu2 : u64 ((count : Int) - 1) = (count : Int) - 1 := u64_small (by omega) (by omega)
      by_cases hg : st.curline < (count : Int) - 1
      · by_cases hy : st.y = H - 1
        · have h := ih ⟨st.firstline + 1, st.curline + 1, st.y⟩
            (by simpa using hc0.trans (by omega)) (by simpa using by omega)
            (by simpa using by omega) (by simpa using by omega) (by simp; omega)
          simp only [select_lines_move_down_n, hcu, hcu2, if_pos hg, if_pos hy] at *
          refine ⟨by omega, by omega, by omega, by omega⟩
        · have h := ih ⟨st.firstline, st.curline + 1, st.y + 1⟩
            (by simpa using hc0.trans (by omega)) (by simpa using by omega)
            (by simpa using by omega) (by simpa using by omega) (by simp; omega)
          simp only [select_lines_move_down_n, hcu, hcu2, if_pos hg, if_neg hy] at *
          refine ⟨by omega, by omega, by omega, by omega⟩
      · simp only [select_lines_move_down_n, hcu, hcu2, if_neg hg]
        refine ⟨by omega, by omega, by omega, by omega⟩

lemma move_up_spec (H : Int) (n : Nat) (st : move_state)
    (hc0 : 0 ≤ st.curline) (hy0 : 0 ≤ st.y) (hyc : st.y = st.curline - st.firstline) :
    ((select_lines_move_up_n H n st).2 : Int) = min (n : Int) st.curline ∧
    (select_lines_move_up_n H n st).1.curline
        = st.curline - ((select_lines_move_up_n H n st).2 : Int) ∧
    (select_lines_move_up_n H n st).1.firstline
        = min st.firstline (select_lines_move_up_n H n st).1.curline ∧
    (select_lines_move_up_n H n st).1.y
        = (select_lines_move_up_n H n st).1.curline
            - (select_lines_move_up_n H n st).1.firstline := by
  induction n generalizing st with
  | zero =>
      simp only [select_lines_move_up_n]
      refine ⟨by omega, by omega, by omega, by omega⟩
  | succ n ih =>
      by_cases hg : 0 < st.curline
      · by_cases hy : st.y = 0
        · have h := ih ⟨st.firstline - 1, st.curline - 1, st.y⟩
            (by simpa using by omega) (by simpa using by omega) (by simp; omega)
          simp only [select_lines_move_up_n, if_pos hg, if_pos hy] at *
          refine ⟨by omega, by omega, by omega, by omega⟩
        · have h := ih ⟨st.firstline, st.curline - 1, st.y - 1⟩
            (by simpa using by omega) (by simpa using by omega) (by simp; omega)
          simp only [select_lines_move_up_n, if_pos hg, if_neg hy] at *
          refine ⟨by omega, by omega, by omega, by omega⟩
      · simp only [select_lines_move_up_n, if_neg hg]
        refine ⟨by omega, by omega, by omega, by omega⟩

lemma move_state_eq_of_fields {a b : move_state}
    (h1 : a.firstline = b.firstline) (h2 : a.curline = b.curline) (h3 : a.y = b.y) :
    a = b := by
  cases a; cases b; simp_all

/-- C2: for a non-empty list, move_down_n and move_up_n advance curline
by at most n steps, clamp at the list bounds, and return the number of
steps actually taken; each single step either scrolls firstline (cursor
row pinned) when the cursor row is at the bottom or top edge, or moves
only the cursor row.  Down additionally keeps firstline at the maximum
of its old value and the value needed to keep curline on the bottom
row. -/
theorem C2_move_n (count : Nat) (H : Int) (n : Nat) (st : move_state)
    (hH : 1 ≤ H) (hc0 : 0 ≤ st.curline) (hcc : st.curline < (count : Int))
    (hcount : (count : Int) ≤ 2 ^ 64)
    (hy0 : 0 ≤ st.y) (hy1 : st.y ≤ H - 1) (hyc : st.y = st.curline - st.firstline) :
    (((select_lines_move_down_n count H n st).2 : Int)
        = min (n : Int) ((count : Int) - 1 - st.curline) ∧
     (select_lines_move_down_n count H n st).1.curline
        = st.curline + ((select_lines_move_down_n count H n st).2 : Int) ∧
     (select_lines_move_down_n count H n st).1.firstline
        = max st.firstline ((select_lines_move_down_n count H n st).1.curline - (H - 1)))
    ∧ (((select_lines_move_up_n H n st).2 : Int) = min (n : Int) st.curline ∧
       (select_lines_move_up_n H n st).1.curline
          = st.curline - ((select_lines_move_up_n H n st).2 : Int) ∧
       (select_lines_move_up_n H n st).1.firstline
          = min st.firstline (select_lines_move_up_n H n st).1.curline)
    ∧ (st.curline < (count : Int) - 1 →
        select_lines_move_down_n count H 1 st
          = if st.y = H - 1 then (⟨st.firstline + 1, st.curline + 1, st.y⟩, 1)
            else (⟨st.firstline, st.curline + 1, st.y + 1⟩, 1))
    ∧ (0 < st.curline →
        select_lines_move_up_n H 1 st
          = if st.y = 0 then (⟨st.firstline - 1, st.curline - 1, st.y⟩, 1)
            else (⟨st.firstline, st.curline - 1, st.y - 1⟩, 1)) := by
  have hd := move_down_spec count H n st hH hc0 hcc hcount hy0 hy1 hyc
  have hu := move_up_spec H n st hc0 hy0 hyc
  have hcu : u64 st.curline = st.curline := u64_small hc0 (by omega)
  have hcu2 : u64 ((count : Int) - 1) = (count : Int) - 1 := u64_small (by omega) (by omega)
  refine ⟨⟨hd.1, hd.2.1, hd.2.2.1⟩, ⟨hu.1, hu.2.1, hu.2.2.1⟩, ?_, ?_⟩
  · intro hlt
    by_cases hy : st.y = H - 1 <;>
      simp [select_lines_move_down_n, hcu, hcu2, hlt, hy]
  · intro hpos
    by_cases hy : st.y = 0 <;>
      simp [select_lines_move_up_n, hpos, hy]

/-- Witness for C2: the scenario of the claim, a list of 5 lines in a
window of height 3, starting at curline 0, firstline 0, cursor on the
top row; moving down 4 ends at curline 4 with firstline 2, with all 4
steps taken. -/
theorem C2_move_n_witness :
    (select_lines_move_down_n 5 3 4 ⟨0, 0, 0⟩).1.curline = 4 ∧
    (select_lines_move_down_n 5 3 4 ⟨0, 0, 0⟩).1.firstline = 2 ∧
    (select_lines_move_down_n 5 3 4 ⟨0, 0, 0⟩).2 = 4 := by
  have h := C2_move_n 5 3 4 ⟨0, 0, 0⟩ (by norm_num) (by norm_num) (by norm_num)
    (by norm_num) (by norm_num) (by norm_num) (by norm_num)
  obtain ⟨⟨h1, h2, h3⟩, -, -, -⟩ := h
  norm_num at h1 h2 h3
  refine ⟨by omega, by omega, by omega⟩

/-- Counterexample to C3 as stated: list of 6 lines, window height 3,
start at firstline 1, curline 2, cursor row 1 (a reachable state with
the cursor not at an edge).  move_down_n 2 performs the full 2 steps
and move_up_n 2 performs the full 2 steps, so neither call is clamped
by a list boundary, yet the final firstline is 2, not the original 1:
the round trip does not restore the state. -/
theorem C3_counterexample :
    (select_lines_move_down_n 6 3 2 ⟨1, 2, 1⟩).2 = 2 ∧
    (select_lines_move_up_n 3 2 (select_lines_move_down_n 6 3 2 ⟨1, 2, 1⟩).1).2 = 2 ∧
    (select_lines_move_up_n 3 2 (select_lines_move_down_n 6 3 2 ⟨1, 2, 1⟩).1).1.firstline = 2 ∧
    (select_lines_move_up_n 3 2 (select_lines_move_down_n 6 3 2 ⟨1, 2, 1⟩).1).1.curline = 2 ∧
    ((2 : Int), (2 : Int)) ≠ ((1 : Int), (2 : Int)) := by
  refine ⟨?_, ?_, ?_, ?_, by decide⟩ <;>
    simp [select_lines_move_down_n, select_lines_move_up_n, u64]

/-- C3 amended: moving down n then up n from the same state restores
the pair of firstline and curline exactly, provided no list boundary is
crossed AND additionally the down phase does not scroll the viewport
while the cursor starts away from the top row; precisely, restoration
holds when the cursor starts on the window top row, or when n does not
exceed the distance from the cursor row to the bottom edge.  (When the
down phase scrolls with the cursor starting below the top row, firstline
ends larger than it began even without boundary clamping.) -/
theorem C3_down_up_amended (count : Nat) (H : Int) (n : Nat) (st : move_state)
    (hH : 1 ≤ H) (hc0 : 0 ≤ st.curline) (hcc : st.curline < (count : Int))
    (hcount : (count : Int) ≤ 2 ^ 64)
    (hy0 : 0 ≤ st.y) (hy1 : st.y ≤ H - 1) (hyc : st.y = st.curline - st.firstline)
    (hnoclamp : (n : Int) ≤ (count : Int) - 1 - st.curline)
    (hcond : st.y = 0 ∨ (n : Int) ≤ (H - 1) - st.y) :
    (select_lines_move_up_n H n (select_lines_move_down_n count H n st).1).1 = st := by
  have hd := move_down_spec count H n st hH hc0 hcc hcount hy0 hy1 hyc
  obtain ⟨hd1, hd2, hd3, hd4⟩ := hd
  have hu := move_up_spec H n (select_lines_move_down_n count H n st).1
    (by omega) (by omega) (by omega)
  obtain ⟨hu1, hu2, hu3, hu4⟩ := hu
  exact move_state_eq_of_fields (by omega) (by omega) (by omega)

/-- Witness for C3 amended: list of 7 lines, height 3, start at
firstline 2, curline 2, cursor on the top row; down 4 then up 4
restores the state exactly. -/
theorem C3_down_up_amended_witness :
    (select_lines_move_up_n 3 4 (select_lines_move_down_n 7 3 4 ⟨2, 2, 0⟩).1).1
      = (⟨2, 2, 0⟩ : move_state) :=
  C3_down_up_amended 7 3 4 ⟨2, 2, 0⟩ (by norm_num) (by norm_num) (by norm_num)
    (by norm_num) (by norm_num) (by norm_num) (by norm_num) (by norm_num)
    (Or.inl (by norm_num))

lemma find_next_fwd_char (m : List Char → Bool) (texts : List (List Char)) :
    ∀ (k idx : Nat), texts.length - idx ≤ k →
      ((∀ r : Nat, find_next_fwd m texts idx = some r ↔
          (idx + r < texts.length ∧ m (texts.getD (idx + r) []) = true ∧
           ∀ j, j < r → m (texts.getD (idx + j) []) = false)) ∧
       (find_next_fwd m texts idx = none ↔
          ∀ j, idx + j < texts.length → m (texts.getD (idx + j) []) = false)) := by
  intro k
  induction k with
  | zero =>
      intro idx hk
      have h1 : ¬ idx < texts.length := by omega
      rw [find_next_fwd]
      rw [if_neg h1]
      refine ⟨?_, ?_⟩
      · intro r
        constructor
        · intro h; exact absurd h (by simp)
        · rintro ⟨ha, -, -⟩; omega
      · constructor
        · intro _ j hj; omega
        · intro _; rfl
  | succ k ih =>
      intro idx hk
      by_cases h1 : idx < texts.length
      · by_cases h2 : m (texts.getD idx []) = true
        · have hu : find_next_fwd m texts idx = some 0 := by
            rw [find_next_fwd, if_pos h1, if_pos h2]
          refine ⟨?_, ?_⟩
          · intro r
            rw [hu]
            constructor
            · intro h
              have hr : r = 0 := (Option.some.inj h).symm
              subst hr
              exact ⟨by omega, h2, by omega⟩
            · rintro ⟨ha, hb, hc⟩
              rcases Nat.eq_zero_or_pos r with hr | hr
              · rw [hr]
              · have hA : m (texts.getD idx []) = false := hc 0 hr
                rw [h2] at hA
                exact absurd hA (by decide)
          · rw [hu]
            constructor
            · intro h; exact absurd h (by simp)
            · intro h
              have hA : m (texts.getD idx []) = false := h 0 (by omega)
              rw [h2] at hA
              exact absurd hA (by decide)
        · have hm : m (texts.getD idx []) = false := by simpa using h2
          have hu : find_next_fwd m texts idx
              = (find_next_fwd m texts (idx + 1)).map (fun s => s + 1) := by
            rw [find_next_fwd, if_pos h1, if_neg h2]
          have ih2 := ih (idx + 1) (by omega)
          refine ⟨?_, ?_⟩
          · intro r
            rw [hu]
            cases r with
            | zero =>
                constructor
                · intro h
                  rcases Option.map_eq_some'.mp h with ⟨s, -, hs⟩
                  omega
                · rintro ⟨-, hb, -⟩
                  have hb2 : m (texts.getD idx []) = true := hb
                  rw [hm] at hb2
                  exact absurd hb2 (by decide)
            | succ s =>
                constructor
                · intro h
                  rcases Option.map_eq_some'.mp h with ⟨q, hq, he⟩
                  have hqs : q = s := by omega
                  rw [hqs] at hq
                  obtain ⟨ha, hb, hc⟩ := (ih2.1 s).mp hq
                  refine ⟨by omega, ?_, ?_⟩
                  · have e : idx + 1 + s = idx + (s + 1) := by omega
                    rwa [e] at hb
                  · intro j hj
                    cases j with
                    | zero => exact hm
                    | succ jp =>
                        have e : idx + 1 + jp = idx + (jp + 1) := by omega
                        have hjp := hc jp (by omega)
                        rwa [e] at hjp
                · rintro ⟨ha, hb, hc⟩
                  have hrec : find_next_fwd m texts (idx + 1) = some s := by
                    refine (ih2.1 s).mpr ⟨by omega, ?_, ?_⟩
                    · have e : idx + 1 + s = idx + (s + 1) := by omega
                      rwa [e]
                    · intro j hj
                      have e : idx + 1 + j = idx + (j + 1) := by omega
                      have hcj := hc (j + 1) (by omega)
                      rwa [e]
                  rw [hrec]
                  rfl
          · rw [hu]
            constructor
            · intro h j hj
              have hrec : find_next_fwd m texts (idx + 1) = none :=
                Option.map_eq_none'.mp h
              cases j with
              | zero => exact hm
              | succ jp =>
                  have e : idx + 1 + jp = idx + (jp + 1) := by omega
                  have hjp := ih2.2.mp hrec jp (by omega)
                  rwa [e] at hjp
            · intro h
              have hrec : find_next_fwd m texts (idx + 1) = none := by
                refine ih2.2.mpr ?_
                intro j hj
                have e : idx + 1 + j = idx + (j + 1) := by omega
                have hcj := h (j + 1) (by omega)
                rwa [e]
              rw [hrec]
              rfl
      · rw [find_next_fwd]
        rw [if_neg h1]
        refine ⟨?_, ?_⟩
        · intro r
          constructor
          · intro h; exact absurd h (by simp)
          · rintro ⟨ha, -, -⟩; omega
        · constructor
          · intro _ j hj; omega
          · intro _; rfl

lemma find_next_bwd_char (m : List Char → Bool) (texts : List (List Char)) :
    ∀ idx : Nat, idx < texts.length →
      ((∀ r : Nat, find_next_bwd m texts idx = some r ↔
          (r ≤ idx ∧ m (texts.getD (idx - r) []) = true ∧
           ∀ j, j < r → m (texts.getD (idx - j) []) = false)) ∧
       (find_next_bwd m texts idx = none ↔
          ∀ j, j ≤ idx → m (texts.getD (idx - j) []) = false)) := by
  intro idx
  induction idx with
  | zero =>
      intro h1
      by_cases h2 : m (texts.getD 0 []) = true
      · have hu : find_next_bwd m texts 0 = some 0 := by
          rw [find_next_bwd, if_pos h1, if_pos h2]
        refine ⟨?_, ?_⟩
        · intro r
          rw [hu]
          constructor
          · intro h
            have hr : r = 0 := (Option.some.inj h).symm
            subst hr
            exact ⟨by omega, h2, by omega⟩
          · rintro ⟨ha, -, -⟩
            have hr : r = 0 := by omega
            rw [hr]
        · rw [hu]
          constructor
          · intro h; exact absurd h (by simp)
          · intro h
            have hA : m (texts.getD 0 []) = false := h 0 (by omega)
            rw [h2] at hA
            exact absurd hA (by decide)
      · have hm : m (texts.getD 0 []) = false := by simpa using h2
        have hu : find_next_bwd m texts 0 = none := by
          rw [find_next_bwd, if_pos h1, if_neg h2]
        refine ⟨?_, ?_⟩
        · intro r
          rw [hu]
          constructor
          · intro h; exact absurd h (by simp)
          · rintro ⟨ha, hb, -⟩
            have hr : r = 0 := by omega
            rw [hr] at hb
            have hb2 : m (texts.getD 0 []) = true := hb
            rw [hm] at hb2
            exact absurd hb2 (by decide)
        · rw [hu]
          constructor
          · intro _ j hj
            have hj0 : j = 0 := by omega
            rw [hj0]
            exact hm
          · intro _; rfl
  | succ idx ih =>
      intro h1
      have ih2 := ih (by omega)
      by_cases h2 : m (texts.getD (idx + 1) []) = true
      · have hu : find_next_bwd m texts (idx + 1) = some 0 := by
          rw [find_next_bwd, if_pos h1, if_pos h2]
        refine ⟨?_, ?_⟩
        · intro r
          rw [hu]
          constructor
          · intro h
            have hr : r = 0 := (Option.some.inj h).symm
            subst hr
            exact ⟨by omega, h2, by omega⟩
          · rintro ⟨ha, hb, hc⟩
            rcases Nat.eq_zero_or_pos r with hr | hr
            · rw [hr]
            · have hA : m (texts.getD (idx + 1) []) = false := hc 0 hr
              rw [h2] at hA
              exact absurd hA (by decide)
        · rw [hu]
          constructor
          · intro h; exact absurd h (by simp)
          · intro h
            have hA : m (texts.getD (idx + 1) []) = false := h 0 (by omega)
            rw [h2] at hA
            exact absurd hA (by decide)
      · have hm : m (texts.getD (idx + 1) []) = false := by simpa using h2
        have hu : find_next_bwd m texts (idx + 1)
            = (find_next_bwd m texts idx).map (fun s => s + 1) := by
          rw [find_next_bwd, if_pos h1, if_neg h2]
        refine ⟨?_, ?_⟩
        · intro r
          rw [hu]
          cases r with
          | zero =>
              constructor
              · intro h
                rcases Option.map_eq_some'.mp h with ⟨s, -, hs⟩
                omega
              · rintro ⟨-, hb, -⟩
                have hb2 : m (texts.getD (idx + 1) []) = true := hb
                rw [hm] at hb2
                exact absurd hb2 (by decide)
          | succ s =>
              constructor
              · intro h
                rcases Option.map_eq_some'.mp h with ⟨q, hq, he⟩
                have hqs : q = s := by omega
                rw [hqs] at hq
                obtain ⟨ha, hb, hc⟩ := (ih2.1 s).mp hq
                refine ⟨by omega, ?_, ?_⟩
                · have e : idx - s = idx + 1 - (s + 1) := by omega
                  rwa [e] at hb
                · intro j hj
                  cases j with
                  | zero => exact hm
                  | succ jp =>
                      have e : idx - jp = idx + 1 - (jp + 1) := by omega
                      have hjp := hc jp (by omega)
                      rwa [e] at hjp
              · rintro ⟨ha, hb, hc⟩
                have hrec : find_next_bwd m texts idx = some s := by
                  refine (ih2.1 s).mpr ⟨by omega, ?_, ?_⟩
                  · have e : idx + 1 - (s + 1) = idx - s := by omega
                    rwa [e] at hb
                  · intro j hj
                    have e : idx + 1 - (j + 1) = idx - j := by omega
                    have hcj := hc (j + 1) (by omega)
                    rwa [e] at hcj
                rw [hrec]
                rfl
        · rw [hu]
          constructor
          · intro h j hj
            have hrec : find_next_bwd m texts idx = none :=
              Option.map_eq_none'.mp h
            cases j with
            | zero => exact hm
            | succ jp =>
                have e : idx - jp = idx + 1 - (jp + 1) := by omega
                have hjp := ih2.2.mp hrec jp (by omega)
                rwa [e] at hjp
          · intro h
            have hrec : find_next_bwd m texts idx = none := by
              refine ih2.2.mpr ?_
              intro j hj
              have e : idx + 1 - (j + 1) = idx - j := by omega
              have hcj := h (j + 1) (by omega)
              rwa [e] at hcj
            rw [hrec]
            rfl

/-- C4: the directional find scans from the current line inclusive, one
index per step, never wraps around either list end, and returns the
number of steps to the first matching line (0 when the current line
matches), or none when no line between the current line and the list
boundary in the scan direction matches. -/
theorem C4_find_next (m : List Char → Bool) (texts : List (List Char)) (cur : Nat)
    (hcur : cur < texts.length) :
    (∀ r : Nat, select_lines_find_next m texts cur true = some r ↔
        (cur + r < texts.length ∧ m (texts.getD (cur + r) []) = true ∧
         ∀ j, j < r → m (texts.getD (cur + j) []) = false)) ∧
    (select_lines_find_next m texts cur true = none ↔
        ∀ j, cur + j < texts.length → m (texts.getD (cur + j) []) = false) ∧
    (∀ r : Nat, select_lines_find_next m texts cur false = some r ↔
        (r ≤ cur ∧ m (texts.getD (cur - r) []) = true ∧
         ∀ j, j < r → m (texts.getD (cur - j) []) = false)) ∧
    (select_lines_find_next m texts cur false = none ↔
        ∀ j, j ≤ cur → m (texts.getD (cur - j) []) = false) := by
  have hf := find_next_fwd_char m texts texts.length cur (by omega)
  have hb := find_next_bwd_char m texts cur hcur
  unfold select_lines_find_next
  simp only [if_pos, if_neg, Bool.true_eq_false]
  exact ⟨hf.1, hf.2, hb.1, hb.2⟩

/-- Witness for C4: two lines, pattern matching only the second;
forward search from line 0 takes one step, backward search from line 0
finds nothing. -/
theorem C4_find_next_witness :
    select_lines_find_next (fun t => t == [Char.ofNat 98]) [[Char.ofNat 97], [Char.ofNat 98]]
        0 true = some 1 ∧
    select_lines_find_next (fun t => t == [Char.ofNat 98]) [[Char.ofNat 97], [Char.ofNat 98]]
        0 false = none := by
  have h := C4_find_next (fun t => t == [Char.ofNat 98]) [[Char.ofNat 97], [Char.ofNat 98]]
    0 (by norm_num)
  refine ⟨(h.1 1).mpr ⟨by norm_num, by decide, by decide⟩, h.2.2.2.mpr ?_⟩
  intro j hj
  have hj0 : j = 0 := by omega
  rw [hj0]
  decide

lemma getD_map_sl (f : select_line → select_line) (lines : List select_line)
    (i : Nat) (hi : i < lines.length) (d : select_line) :
    (lines.map f).getD i d = f (lines.getD i d) := by
  induction lines generalizing i with
  | nil => simp at hi
  | cons l rest ih =>
      cases i with
      | zero => simp [List.getD]
      | succ j =>
          have hj : j < rest.length := by simpa using hi
          simpa [List.getD] using ih j hj

lemma map_id_of_eq {α : Type} (f : α → α) (l : List α) (h : ∀ x ∈ l, f x = x) :
    l.map f = l := by
  induction l with
  | nil => rfl
  | cons a rest ih =>
      simp only [List.map_cons, h a (by simp)]
      rw [ih (fun x hx => h x (by simp [hx]))]

/-- C6: mark_matching sets the marked flag of every line whose text the
compiled pattern matches and leaves every other line unchanged (text
always unchanged, marked flag of non-matching lines unchanged); when the
pattern fails to compile, the regexp error message is reported via the
prompt and no line changes; a valid pattern matching no line leaves all
lines exactly as they were and reports no error. -/
theorem C6_mark_matching (lines : List select_line) :
    (select_lines_mark_matching none lines
        = (lines, some regexp_error_msg)) ∧
    (∀ m : List Char → Bool,
      (select_lines_mark_matching (some m) lines).2 = none ∧
      (select_lines_mark_matching (some m) lines).1.length = lines.length ∧
      (∀ (i : Nat), i < lines.length →
        ((select_lines_mark_matching (some m) lines).1.getD i ⟨[], false⟩).text
            = (lines.getD i ⟨[], false⟩).text ∧
        ((select_lines_mark_matching (some m) lines).1.getD i ⟨[], false⟩).marked
            = (if m (lines.getD i ⟨[], false⟩).text then true
               else (lines.getD i ⟨[], false⟩).marked))) ∧
    (∀ m : List Char → Bool, (∀ l ∈ lines, m l.text = false) →
      select_lines_mark_matching (some m) lines = (lines, none)) := by
  refine ⟨rfl, ?_, ?_⟩
  · intro m
    refine ⟨rfl, by simp [select_lines_mark_matching], ?_⟩
    intro i hi
    have hmap := getD_map_sl
      (fun l => if m l.text then { l with marked := true } else l) lines i hi ⟨[], false⟩
    constructor
    · rw [show (select_lines_mark_matching (some m) lines).1
          = lines.map (fun l => if m l.text then { l with marked := true } else l) from rfl]
      rw [hmap]
      by_cases hm : m (lines.getD i ⟨[], false⟩).text = true
      · simp only [if_pos hm]
      · simp only [if_neg hm]
    · rw [show (select_lines_mark_matching (some m) lines).1
          = lines.map (fun l => if m l.text then { l with marked := true } else l) from rfl]
      rw [hmap]
      by_cases hm : m (lines.getD i ⟨[], false⟩).text = true
      · simp only [if_pos hm]
      · simp only [if_neg hm]
  · intro m hnone
    have he : select_lines_mark_matching (some m) lines
        = (lines.map (fun l => if m l.text then { l with marked := true } else l), none) := rfl
    rw [he, map_id_of_eq _ lines (fun l hl => by simp [hnone l hl])]

/-- Witness for C6: a two-line list with a matcher hitting only the
first line marks exactly that line, and the pointwise description of
the theorem evaluates accordingly at index 0. -/
theorem C6_mark_matching_witness :
    ((select_lines_mark_matching (some (fun t => t == [Char.ofNat 97]))
        [⟨[Char.ofNat 97], false⟩, ⟨[Char.ofNat 98], false⟩]).1.getD 0
          ⟨[], false⟩).marked = true := by
  have h := (C6_mark_matching
    [⟨[Char.ofNat 97], false⟩, ⟨[Char.ofNat 98], false⟩]).2.1
    (fun t => t == [Char.ofNat 97])
  have h0 := h.2.2 0 (by norm_num)
  rw [h0.2]
  decide

/-- Counterexample to C8 as stated: window height 4, firstline 1,
curline 1 (a valid state, cursor on the top row).  curline minus half
the height is negative, so the claim says firstline becomes 0; the code
leaves firstline untouched at 1. -/
theorem C8_counterexample :
    (select_lines_center_view 4 ⟨1, 1, 0⟩).firstline = 1 ∧ (1 : Int) ≠ 0 := by
  constructor
  · rfl
  · decide

/-- C8 amended: center_view sets firstline to curline minus half the
window height when that value is non-negative; when it is negative the
code leaves firstline unchanged (it is NOT clamped to 0).  curline and
the cursor row are unchanged in both cases, and the marked flags are
untouched (the function reads and writes viewport fields only). -/
theorem C8_center_view_amended (H : Int) (st : move_state) :
    (0 ≤ st.curline - H / 2 →
        select_lines_center_view H st = ⟨st.curline - H / 2, st.curline, st.y⟩) ∧
    (st.curline - H / 2 < 0 → select_lines_center_view H st = st) ∧
    (select_lines_center_view H st).curline = st.curline ∧
    (select_lines_center_view H st).y = st.y := by
  unfold select_lines_center_view
  by_cases hc : (0 : Int) ≤ st.firstline + (st.curline - st.firstline - H / 2)
  · simp only [if_pos hc]
    refine ⟨?_, ?_, by trivial, by trivial⟩
    · intro h
      exact move_state_eq_of_fields (by simp; omega) (by simp) (by simp)
    · intro h
      omega
  · simp only [if_neg hc]
    refine ⟨?_, fun _ => by trivial, by trivial, by trivial⟩
    intro h
    omega

/-- Witness for C8 amended: height 3, firstline 0, curline 4; the view
is recentered with firstline 3. -/
theorem C8_center_view_amended_witness :
    select_lines_center_view 3 ⟨0, 4, 2⟩ = (⟨3, 4, 2⟩ : move_state) := by
  have h := (C8_center_view_amended 3 ⟨0, 4, 2⟩).1 (by norm_num)
  simpa using h

lemma set_str2_go_spec (wi : win_info) :
    ∀ (str : List Char) (buf : Int → Int → Char) (i0 : Int),
      (∀ k : Nat, k < str.length → wi.x + (i0 + k) ≤ wi.x_max + 1 →
        set_str2_go wi str buf i0 (wi.x_min + wi.x + (i0 + k)) (wi.y_min + wi.y)
          = simple_char (str.getD k ' ')) ∧
      (∀ col row,
        (¬ (row = wi.y_min + wi.y ∧ ∃ k : Nat, k < str.length ∧
              col = wi.x_min + wi.x + (i0 + k) ∧ wi.x + (i0 + k) ≤ wi.x_max + 1)) →
        set_str2_go wi str buf i0 col row = buf col row) := by
  intro str
  induction str with
  | nil =>
      intro buf i0
      constructor
      · intro k hk
        simp at hk
      · intro col row hn
        rfl
  | cons c rest ih =>
      intro buf i0
      constructor
      · intro k hk hle
        cases k with
        | zero =>
            simp only [Nat.cast_zero, add_zero] at hle ⊢
            simp only [set_str2_go]
            rw [(ih _ (i0 + 1)).2 _ _ ?notin]
            case notin =>
              rintro ⟨hrow, k2, hk2, hcol, -⟩
              have hge : (0 : Int) ≤ (k2 : Int) := by positivity
              omega
            rw [if_pos hle]
            simp
        | succ kp =>
            simp only [set_str2_go]
            have hkp : kp < rest.length := by simpa using hk
            have hle2 : wi.x + (i0 + 1 + kp) ≤ wi.x_max + 1 := by
              push_cast at hle ⊢; omega
            have ecol : wi.x_min + wi.x + (i0 + ((kp + 1 : Nat) : Int))
                = wi.x_min + wi.x + (i0 + 1 + (kp : Int)) := by push_cast; omega
            rw [ecol, (ih _ (i0 + 1)).1 kp hkp hle2]
            simp [List.getD]
      · intro col row hn
        simp only [set_str2_go]
        rw [(ih _ (i0 + 1)).2 _ _ ?notin2]
        case notin2 =>
          rintro ⟨hrow, k2, hk2, hcol, hg2⟩
          refine hn ⟨hrow, k2 + 1, by simpa using Nat.succ_lt_succ hk2, ?_, ?_⟩
          · push_cast at hcol ⊢; omega
          · push_cast at hg2 ⊢; omega
        by_cases hg : wi.x + i0 ≤ wi.x_max + 1
        · rw [if_pos hg]
          by_cases hcell : col = wi.x_min + wi.x + i0 ∧ row = wi.y_min + wi.y
          · exfalso
            refine hn ⟨hcell.2, 0, by simp, ?_, ?_⟩
            · push_cast
              simpa using hcell.1
            · push_cast
              simpa using hg
          · rw [if_neg hcell]
        · rw [if_neg hg]

/-- Counterexample to C9 as stated: a window with left edge at column
0 and right edge at column 3, cursor at local column 0.  Writing the
five-character string abcde stores the character e (code 101) into
absolute column 4, which is past the right edge: the truncation guard
of screen_set_str2 admits one column beyond x_max. -/
theorem C9_counterexample :
    (screen_set_str2 ⟨0, 3, 0, 0, 0, 0⟩ (fun _ _ => Char.ofNat 0)
        [Char.ofNat 97, Char.ofNat 98, Char.ofNat 99, Char.ofNat 100, Char.ofNat 101]).1 4 0
      = Char.ofNat 101 ∧ ¬ ((4 : Int) ≤ 3) := by
  constructor
  · rfl
  · decide

/-- C9 amended: screen_set_str2 writes the characters of the string
left-to-right into the cursor row starting at the cursor column,
storing each character through the classification map (non-printable
bytes become a space), returns the length of the string, and does not
touch the window cursor (the function never writes the cursor fields).
A character is stored exactly when its window-local column is at most
x_max plus one: truncation cuts characters beyond ONE column past the
right edge, not at the right edge itself; every cell outside the
written range keeps its previous content. -/
theorem C9_set_str2_amended (wi : win_info) (buf : Int → Int → Char) (str : List Char) :
    (screen_set_str2 wi buf str).2 = str.length ∧
    (∀ k : Nat, k < str.length → wi.x + k ≤ wi.x_max + 1 →
        (screen_set_str2 wi buf str).1 (wi.x_min + wi.x + k) (wi.y_min + wi.y)
          = simple_char (str.getD k ' ')) ∧
    (∀ col row,
        (¬ (row = wi.y_min + wi.y ∧ ∃ k : Nat, k < str.length ∧
            col = wi.x_min + wi.x + k ∧ wi.x + k ≤ wi.x_max + 1)) →
        (screen_set_str2 wi buf str).1 col row = buf col row) := by
  have h := set_str2_go_spec wi str buf 0
  refine ⟨rfl, ?_, ?_⟩
  · intro k hk hle
    have h1 := h.1 k hk (by omega)
    simpa using h1
  · intro col row hn
    refine h.2 col row ?_
    rintro ⟨hrow, k, hk, hcol, hg⟩
    exact hn ⟨hrow, k, hk, by omega, by omega⟩

/-- Witness for C9 amended: writing the single character a at the
cursor of an in-range window stores it at the cursor cell. -/
theorem C9_set_str2_amended_witness :
    (screen_set_str2 ⟨0, 3, 0, 0, 0, 0⟩ (fun _ _ => Char.ofNat 0) [Char.ofNat 97]).1 0 0
      = Char.ofNat 97 := by
  have h := (C9_set_str2_amended ⟨0, 3, 0, 0, 0, 0⟩ (fun _ _ => Char.ofNat 0)
    [Char.ofNat 97]).2.1 0 (by norm_num) (by norm_num)
  simp only [Nat.cast_zero, add_zero] at h
  rw [h]
  decide

lemma toggle_nth_spec (d : select_line) :
    ∀ (lines : List select_line) (i : Nat), i < lines.length →
      (toggle_nth lines i).length = lines.length ∧
      ((toggle_nth lines i).getD i d).text = (lines.getD i d).text ∧
      ((toggle_nth lines i).getD i d).marked = ! (lines.getD i d).marked ∧
      ∀ j : Nat, j ≠ i → (toggle_nth lines i).getD j d = lines.getD j d := by
  intro lines
  induction lines with
  | nil =>
      intro i hi
      simp at hi
  | cons l rest ih =>
      intro i hi
      cases i with
      | zero =>
          refine ⟨by simp [toggle_nth], by simp [toggle_nth, List.getD],
            by simp [toggle_nth, List.getD], ?_⟩
          intro j hj
          cases j with
          | zero => exact absurd rfl hj
          | succ jp => simp [toggle_nth, List.getD]
      | succ ip =>
          have hip : ip < rest.length := by simpa using hi
          obtain ⟨h1, h2, h3, h4⟩ := ih ip hip
          refine ⟨by simp [toggle_nth, h1],
            by simpa [toggle_nth, List.getD] using h2,
            by simpa [toggle_nth, List.getD] using h3, ?_⟩
          intro j hj
          cases j with
          | zero => simp [toggle_nth, List.getD]
          | succ jp => simpa [toggle_nth, List.getD] using h4 jp (by omega)

lemma presel_entry_in_range (lines : List select_line) (v : Int)
    (hcount : (lines.length : Int) < 2 ^ 63) (h1 : 1 ≤ v) (h2 : v ≤ lines.length) :
    presel_entry lines v = toggle_nth lines (v - 1).toNat := by
  simp only [presel_entry]
  have hw : i64wrap (v - 1) = v - 1 := by unfold i64wrap; omega
  have hu : u64 (v - 1) = v - 1 := by unfold u64; omega
  rw [hw, hu, if_pos (by omega)]

lemma presel_entry_out_of_range (lines : List select_line) (v : Int)
    (hcount : (lines.length : Int) < 2 ^ 63)
    (hlo : -(2 ^ 63) ≤ v) (hhi : v ≤ 2 ^ 63 - 1)
    (hout : v < 1 ∨ (lines.length : Int) < v) :
    presel_entry lines v = lines := by
  simp only [presel_entry]
  rw [if_neg ?_]
  unfold i64wrap u64
  omega

lemma presel_file_go_toggles :
    ∀ (chars : List Char) (lines : List select_line) (acc : List Char) (inNum : Bool),
      ∃ vs : List Int, (∀ v ∈ vs, 0 ≤ v ∧ v ≤ 2 ^ 63 - 1) ∧
        presel_file_go lines acc inNum chars = select_lines_presel_listed lines vs := by
  intro chars
  induction chars with
  | nil =>
      intro lines acc inNum
      exact ⟨[], by simp, rfl⟩
  | cons c rest ih =>
      intro lines acc inNum
      by_cases hn : inNum
      · by_cases hd : is_digit c = true
        · obtain ⟨vs, hvs, he⟩ := ih lines (acc ++ [c]) true
          refine ⟨vs, hvs, ?_⟩
          rw [← he]
          simp [presel_file_go, hn, hd]
        · obtain ⟨vs, hvs, he⟩ :=
            ih (presel_entry lines (strtol_clamp (digits_val acc 0))) [] false
          refine ⟨strtol_clamp (digits_val acc 0) :: vs, ?_, ?_⟩
          · intro v hv
            rcases List.mem_cons.mp hv with hv0 | hv1
            · rw [hv0]
              unfold strtol_clamp
              constructor
              · positivity
              · exact min_le_right _ _
            · exact hvs v hv1
          · rw [show select_lines_presel_listed lines
                  (strtol_clamp (digits_val acc 0) :: vs)
                = select_lines_presel_listed
                    (presel_entry lines (strtol_clamp (digits_val acc 0))) vs from rfl]
            rw [← he]
            simp [presel_file_go, hn, hd]
      · by_cases hd : is_digit c = true
        · obtain ⟨vs, hvs, he⟩ := ih lines [c] true
          refine ⟨vs, hvs, ?_⟩
          rw [← he]
          simp [presel_file_go, hn, hd]
        · obtain ⟨vs, hvs, he⟩ := ih lines acc false
          refine ⟨vs, hvs, ?_⟩
          rw [← he]
          simp [presel_file_go, hn, hd]

/-- C10: a preselect entry with 1-based index k toggles the marked
flag of line k exactly when 1 is at most k and k is at most the list
length (the toggled line keeps its text, every other line is untouched);
every entry outside that range -- including 0, negative values and
values past the end -- leaves the whole list unchanged, because the
signed index converts to an unsigned value at least the line count, so
no out-of-bounds line is ever referenced.  The file variant reduces to
a sequence of such entries with non-negative values.  The strtol range
and the list-length bound reflect the 64-bit pl_pos_t and pl_size_t of
the source. -/
theorem C10_presel (lines : List select_line) (d : select_line)
    (hcount : (lines.length : Int) < 2 ^ 63) :
    (∀ v : Int, 1 ≤ v → v ≤ lines.length →
      (presel_entry lines v).length = lines.length ∧
      ((presel_entry lines v).getD (v - 1).toNat d).text
          = (lines.getD (v - 1).toNat d).text ∧
      ((presel_entry lines v).getD (v - 1).toNat d).marked
          = ! (lines.getD (v - 1).toNat d).marked ∧
      (∀ j : Nat, (j : Int) ≠ v - 1 →
          (presel_entry lines v).getD j d = lines.getD j d)) ∧
    (∀ v : Int, -(2 ^ 63) ≤ v → v ≤ 2 ^ 63 - 1 →
      (v < 1 ∨ (lines.length : Int) < v) → presel_entry lines v = lines) ∧
    (∀ entries : List Int,
      select_lines_presel_listed lines entries = entries.foldl presel_entry lines) ∧
    (∀ chars : List Char, ∃ vs : List Int,
      (∀ v ∈ vs, 0 ≤ v ∧ v ≤ 2 ^ 63 - 1) ∧
      select_lines_presel_file lines chars = select_lines_presel_listed lines vs) := by
  refine ⟨?_, ?_, fun entries => rfl, fun chars => presel_file_go_toggles chars lines [] false⟩
  · intro v h1 h2
    rw [presel_entry_in_range lines v hcount h1 h2]
    have hvn : (v - 1).toNat < lines.length := by omega
    obtain ⟨g1, g2, g3, g4⟩ := toggle_nth_spec d lines (v - 1).toNat hvn
    refine ⟨g1, g2, g3, ?_⟩
    intro j hj
    exact g4 j (by omega)
  · intro v hlo hhi hout
    exact presel_entry_out_of_range lines v hcount hlo hhi hout

/-- Witness for C10: on a two-line list, entry 2 toggles the second
line's marked flag and preserves the first line; entry 0 and entry 3
leave the list unchanged. -/
theorem C10_presel_witness :
    ((presel_entry [⟨[], false⟩, ⟨[], false⟩] 2).getD 1 ⟨[], false⟩).marked = true ∧
    (presel_entry [⟨[], false⟩, ⟨[], false⟩] 2).getD 0 ⟨[], false⟩
        = (⟨[], false⟩ : select_line) ∧
    presel_entry [⟨[], false⟩, ⟨[], false⟩] 0 = [⟨[], false⟩, ⟨[], false⟩] ∧
    presel_entry [⟨[], false⟩, ⟨[], false⟩] 3 = [⟨[], false⟩, ⟨[], false⟩] := by
  have h := C10_presel [⟨[], false⟩, ⟨[], false⟩] ⟨[], false⟩ (by norm_num)
  obtain ⟨hin, hout, -, -⟩ := h
  have h2 := hin 2 (by norm_num) (by norm_num)
  refine ⟨?_, ?_, ?_, ?_⟩
  · have := h2.2.2.1
    simpa using this
  · have := h2.2.2.2 0 (by norm_num)
    simpa using this
  · exact hout 0 (by norm_num) (by norm_num) (Or.inl (by norm_num))
  · exact hout 3 (by norm_num) (by norm_num) (Or.inr (by norm_num))

lemma prompt_apply_inv (x0 xmax : Int) (hx0 : 0 ≤ x0) (hxm : x0 ≤ xmax)
    (st : prompt_state) (h : prompt_inv x0 xmax st) (op : prompt_op) :
    prompt_inv x0 xmax (prompt_apply x0 xmax st op) := by
  unfold prompt_inv x_pos at h ⊢
  obtain ⟨b0, bi, buf⟩ := st
  obtain ⟨h1, h2, h3, h4, h5⟩ := h
  dsimp only at h1 h2 h3 h4 h5 ⊢
  cases op with
  | left =>
      simp only [prompt_apply, x_pos]
      split_ifs with hbi hedge <;> try dsimp only
      all_goals exact ⟨by omega, by omega, by omega, by omega, by omega⟩
  | right =>
      simp only [prompt_apply, x_pos]
      split_ifs with hbi hedge <;> try dsimp only
      all_goals exact ⟨by omega, by omega, by omega, by omega, by omega⟩
  | home =>
      simp only [prompt_apply]
      try dsimp only
      exact ⟨by omega, by omega, by omega, by omega, by omega⟩
  | toEnd =>
      simp only [prompt_apply, x_pos]
      split_ifs with hb <;> try dsimp only
      all_goals exact ⟨by omega, by omega, by omega, by omega, by omega⟩
  | del =>
      simp only [prompt_apply, x_pos]
      split_ifs with hbi
      · have hb2 : bi.toNat < buf.length := by omega
        have hlen : (buf.eraseIdx bi.toNat).length = buf.length - 1 := by
          simp [List.length_eraseIdx, hb2]
        try dsimp only
        rw [hlen]
        exact ⟨by omega, by omega, by omega, by omega, by omega⟩
      · try dsimp only
        exact ⟨by omega, by omega, by omega, by omega, by omega⟩
  | backspace =>
      simp only [prompt_apply, x_pos]
      split_ifs with hbi hedge
      · have hb2 : (bi - 1).toNat < buf.length := by omega
        have hlen : (buf.eraseIdx (bi - 1).toNat).length = buf.length - 1 := by
          simp [List.length_eraseIdx, hb2]
          omega
        try dsimp only
        rw [hlen]
        exact ⟨by omega, by omega, by omega, by omega, by omega⟩
      · have hb2 : (bi - 1).toNat < buf.length := by omega
        have hlen : (buf.eraseIdx (bi - 1).toNat).length = buf.length - 1 := by
          simp [List.length_eraseIdx, hb2]
          omega
        try dsimp only
        rw [hlen]
        exact ⟨by omega, by omega, by omega, by omega, by omega⟩
      · try dsimp only
        exact ⟨by omega, by omega, by omega, by omega, by omega⟩
  | kill =>
      simp only [prompt_apply, x_pos]
      split_ifs with hbi
      · have hlen : (buf.take bi.toNat).length = bi.toNat := by
          rw [List.length_take]
          omega
        try dsimp only
        rw [hlen]
        exact ⟨by omega, by omega, by omega, by omega, by omega⟩
      · try dsimp only
        exact ⟨by omega, by omega, by omega, by omega, by omega⟩
  | insert c =>
      simp only [prompt_apply, x_pos]
      split_ifs with hpr hedge
      · have hlen : (buf.take bi.toNat ++ c :: buf.drop bi.toNat).length
            = buf.length + 1 := by
          simp
          omega
        try dsimp only
        rw [hlen]
        exact ⟨by omega, by omega, by omega, by omega, by omega⟩
      · have hlen : (buf.take bi.toNat ++ c :: buf.drop bi.toNat).length
            = buf.length + 1 := by
          simp
          omega
        try dsimp only
        rw [hlen]
        exact ⟨by omega, by omega, by omega, by omega, by omega⟩
      · try dsimp only
        exact ⟨by omega, by omega, by omega, by omega, by omega⟩

lemma prompt_foldl_inv (x0 xmax : Int) (hx0 : 0 ≤ x0) (hxm : x0 ≤ xmax) :
    ∀ (ops : List prompt_op) (st : prompt_state), prompt_inv x0 xmax st →
      prompt_inv x0 xmax (ops.foldl (prompt_apply x0 xmax) st) := by
  intro ops
  induction ops with
  | nil => intro st h; exact h
  | cons op rest ih =>
      intro st h
      exact ih _ (prompt_apply_inv x0 xmax hx0 hxm st h op)

/-- C7: for every sequence of prompt editing operations applied from
the opening state (empty buffer, view start and cursor 0), the
invariant 0 at most view_start at most cursor at most buffer length
holds, and the derived screen cursor column x0 plus cursor minus
view_start lies within the window's horizontal extent (between 0 and
x_max), provided the label fits in the window (0 at most x0 at most
x_max). -/
theorem C7_prompt_invariant (x0 xmax : Int) (hx0 : 0 ≤ x0) (hxm : x0 ≤ xmax)
    (ops : List prompt_op) :
    prompt_inv x0 xmax (prompt_run x0 xmax ops) := by
  refine prompt_foldl_inv x0 xmax hx0 hxm ops prompt_init_state ?_
  unfold prompt_inv prompt_init_state x_pos
  dsimp only
  refine ⟨by omega, by omega, by simp, by omega, by omega⟩

/-- Witness for C7: a concrete editing session (insert three
characters, move, delete, jump to the end) in a window with label
width 2 and right extent 5 keeps the invariant. -/
theorem C7_prompt_invariant_witness :
    prompt_inv 2 5 (prompt_run 2 5
      [prompt_op.insert 'a', prompt_op.insert 'b', prompt_op.insert 'c',
       prompt_op.left, prompt_op.backspace, prompt_op.toEnd, prompt_op.del,
       prompt_op.home, prompt_op.right, prompt_op.kill]) :=
  C7_prompt_invariant 2 5 (by norm_num) (by norm_num) _

lemma fi_loop_no_term (m : List Char → Bool) (H : Int) :
    ∀ (keys : List fi_key) (s : fi_state), (∀ ky ∈ keys, fi_terminator ky = false) →
      fi_loop m H keys s = (keys.foldl (fi_step m H) s, none) := by
  intro keys
  induction keys with
  | nil =>
      intro s h
      rfl
  | cons key rest ih =>
      intro s h
      have hk : fi_terminator key = false := h key (by simp)
      simp only [fi_loop, List.foldl_cons]
      rw [if_neg (by simp [hk])]
      exact ih _ (fun ky hkk => h ky (by simp [hkk]))

lemma fi_loop_term (m : List Char → Bool) (H : Int) (tk : fi_key) (ht : fi_terminator tk = true) :
    ∀ (keys : List fi_key) (s : fi_state), (∀ ky ∈ keys, fi_terminator ky = false) →
      fi_loop m H (keys ++ [tk]) s
        = (keys.foldl (fi_step m H) s, some (fi_use_org tk)) := by
  intro keys
  induction keys with
  | nil =>
      intro s h
      simp only [List.nil_append, fi_loop, List.foldl_nil]
      rw [if_pos (by simp [ht])]
  | cons key rest ih =>
      intro s h
      have hk : fi_terminator key = false := h key (by simp)
      simp only [List.cons_append, fi_loop, List.foldl_cons]
      rw [if_neg (by simp [hk])]
      exact ih _ (fun ky hkk => h ky (by simp [hkk]))

/-- C5: in FindInteractive mode, (i) cancelling with Escape or Ctrl-G
after any sequence of non-terminating keys (including immediately, with
no search step taken) restores firstline and curline to the exact entry
position; (ii) confirming with Enter keeps the position the key loop
reached (no revert); (iii) and (iv) a next or previous keypress whose
directional search fails reverts firstline and curline to the position
saved immediately before that search step; (v) the very first keypress
searches the current line too: when the current line matches, the
cursor does not move; (vi) a successful next search leaves the cursor
on a line the pattern matches. -/
theorem C5_find_interactive (m : List Char → Bool) (H : Int) (lines : List select_line)
    (st0 : move_state) :
    (∀ keys : List fi_key, (∀ ky ∈ keys, fi_terminator ky = false) →
      ∀ tk : fi_key, tk = fi_key.esc ∨ tk = fi_key.ctrlG →
        (select_lines_find_interactive m H lines st0 (keys ++ [tk])).1.firstline
            = st0.firstline ∧
        (select_lines_find_interactive m H lines st0 (keys ++ [tk])).1.curline
            = st0.curline)
  ∧ (∀ keys : List fi_key, (∀ ky ∈ keys, fi_terminator ky = false) →
      (select_lines_find_interactive m H lines st0 (keys ++ [fi_key.enter])).1.firstline
          = (keys.foldl (fi_step m H) ⟨fi_display st0, lines, true⟩).pos.firstline ∧
      (select_lines_find_interactive m H lines st0 (keys ++ [fi_key.enter])).1.curline
          = (keys.foldl (fi_step m H) ⟨fi_display st0, lines, true⟩).pos.curline)
  ∧ (∀ s : fi_state, s.first_search = false →
      (select_lines_move_down_n s.lines.length H 1 s.pos).2 = 1 →
      select_lines_find_next m (fi_texts s.lines)
          (select_lines_move_down_n s.lines.length H 1 s.pos).1.curline.toNat true = none →
      (fi_step m H s fi_key.j).pos.firstline = s.pos.firstline ∧
      (fi_step m H s fi_key.j).pos.curline = s.pos.curline)
  ∧ (∀ s : fi_state, s.first_search = false →
      (select_lines_move_up_n H 1 s.pos).2 = 1 →
      select_lines_find_next m (fi_texts s.lines)
          (select_lines_move_up_n H 1 s.pos).1.curline.toNat false = none →
      (fi_step m H s fi_key.k).pos.firstline = s.pos.firstline ∧
      (fi_step m H s fi_key.k).pos.curline = s.pos.curline)
  ∧ (∀ s : fi_state, s.first_search = true → 0 ≤ s.pos.curline →
      s.pos.curline.toNat < s.lines.length →
      m ((fi_texts s.lines).getD s.pos.curline.toNat []) = true →
      (fi_step m H s fi_key.j).pos.firstline = s.pos.firstline ∧
      (fi_step m H s fi_key.j).pos.curline = s.pos.curline ∧
      (fi_step m H s fi_key.k).pos.firstline = s.pos.firstline ∧
      (fi_step m H s fi_key.k).pos.curline = s.pos.curline)
  ∧ (∀ (s : fi_state) (off : Nat),
      1 ≤ H → 0 ≤ s.pos.curline → s.pos.curline < (s.lines.length : Int) →
      (s.lines.length : Int) ≤ 2 ^ 64 →
      0 ≤ s.pos.y → s.pos.y ≤ H - 1 → s.pos.y = s.pos.curline - s.pos.firstline →
      s.first_search = false →
      (select_lines_move_down_n s.lines.length H 1 s.pos).2 = 1 →
      select_lines_find_next m (fi_texts s.lines)
          (select_lines_move_down_n s.lines.length H 1 s.pos).1.curline.toNat true
        = some off →
      m ((fi_texts s.lines).getD (fi_step m H s fi_key.j).pos.curline.toNat []) = true) := by
  refine ⟨?_, ?_, ?_, ?_, ?_, ?_⟩
  · intro keys hnt tk ht
    have hterm : fi_terminator tk = true := by
      rcases ht with rfl | rfl <;> rfl
    have huse : fi_use_org tk = true := by
      rcases ht with rfl | rfl <;> rfl
    simp only [select_lines_find_interactive]
    rw [fi_loop_term m H tk hterm keys _ hnt, huse]
    simp [fi_display]
  · intro keys hnt
    have hterm : fi_terminator fi_key.enter = true := rfl
    simp only [select_lines_find_interactive]
    rw [fi_loop_term m H fi_key.enter hterm keys _ hnt]
    simp [fi_use_org, fi_display]
  · intro s hfs hmv hfind
    simp only [fi_step, hfs, Bool.false_eq_true, if_false, hmv, if_pos, hfind]
    simp [fi_display]
  · intro s hfs hmv hfind
    simp only [fi_step, hfs, Bool.false_eq_true, if_false, hmv, if_pos, hfind]
    simp [fi_display]
  · intro s hfs hc0 hcN hm
    have hlen : (fi_texts s.lines).length = s.lines.length := by simp [fi_texts]
    have hfwd : select_lines_find_next m (fi_texts s.lines) s.pos.curline.toNat true
        = some 0 := by
      have hch := (find_next_fwd_char m (fi_texts s.lines) (fi_texts s.lines).length
        s.pos.curline.toNat (by omega)).1 0
      simp only [select_lines_find_next, if_pos]
      exact hch.mpr ⟨by omega, hm, by omega⟩
    have hbwd : select_lines_find_next m (fi_texts s.lines) s.pos.curline.toNat false
        = some 0 := by
      have hch := (find_next_bwd_char m (fi_texts s.lines) s.pos.curline.toNat
        (by omega)).1 0
      have : find_next_bwd m (fi_texts s.lines) s.pos.curline.toNat = some 0 :=
        hch.mpr ⟨by omega, by simpa using hm, by omega⟩
      simpa [select_lines_find_next] using this
    refine ⟨?_, ?_, ?_, ?_⟩ <;>
      simp [fi_step, hfs, hfwd, hbwd, select_lines_move_down_n, select_lines_move_up_n,
        fi_display]
  · intro s off hH hc0 hcc hcnt hy0 hy1 hyc hfs hmv hfind
    have hfind2 : find_next_fwd m (fi_texts s.lines)
        (select_lines_move_down_n s.lines.length H 1 s.pos).1.curline.toNat = some off := by
      simpa [select_lines_find_next] using hfind
    have hlen : (fi_texts s.lines).length = s.lines.length := by simp [fi_texts]
    have hspec1 := move_down_spec s.lines.length H 1 s.pos hH hc0 hcc hcnt hy0 hy1 hyc
    obtain ⟨ha1, ha2, ha3, ha4⟩ := hspec1
    rw [hmv] at ha1 ha2
    have hcur1 : (select_lines_move_down_n s.lines.length H 1 s.pos).1.curline
        = s.pos.curline + 1 := by omega
    have hch := (find_next_fwd_char m (fi_texts s.lines) (fi_texts s.lines).length
      (select_lines_move_down_n s.lines.length H 1 s.pos).1.curline.toNat (by omega)).1 off
    obtain ⟨hb1, hb2, -⟩ := hch.mp hfind2
    rw [hlen] at hb1
    have hspec2 := move_down_spec s.lines.length H off
      (select_lines_move_down_n s.lines.length H 1 s.pos).1 hH (by omega) (by omega)
      hcnt (by omega) (by omega) (by omega)
    obtain ⟨hd1, hd2, -, -⟩ := hspec2
    have hsteps2 : ((select_lines_move_down_n s.lines.length H off
        (select_lines_move_down_n s.lines.length H 1 s.pos).1).2 : Int) = off := by omega
    simp only [fi_step, hfs, Bool.false_eq_true, if_false, hmv, if_pos, hfind]
    have hidx : (fi_display (select_lines_move_down_n s.lines.length H off
        (select_lines_move_down_n s.lines.length H 1 s.pos).1).1).curline.toNat
        = (select_lines_move_down_n s.lines.length H 1 s.pos).1.curline.toNat + off := by
      simp only [fi_display]
      omega
    simp only [fi_display] at hidx ⊢
    rw [hidx]
    exact hb2

/-- Witness for C5: pressing Escape immediately upon entering the mode
returns the cursor to the exact entry position. -/
theorem C5_find_interactive_witness :
    (select_lines_find_interactive (fun _ => false) 3 [⟨[], false⟩] ⟨0, 0, 0⟩
        [fi_key.esc]).1.firstline = 0 ∧
    (select_lines_find_interactive (fun _ => false) 3 [⟨[], false⟩] ⟨0, 0, 0⟩
        [fi_key.esc]).1.curline = 0 := by
  have h := (C5_find_interactive (fun _ => false) 3 [⟨[], false⟩] ⟨0, 0, 0⟩).1
    [] (by simp) fi_key.esc (Or.inl rfl)
  simpa using h

end Take
